import Mathlib

/-!
Shallow embedding of the hydrogen-wavefunction core
(`src/hydrogen_wavefunction.py` plus the naive historical variant in
`src/hydrogen_wavefunction_annotated.py`), together with theorems checking
the natural-language specification against it.

Numpy arrays are modelled as `List` / `List (List _)`; machine floats are
modelled as exact reals; Python exceptions are modelled with `Except`.
-/

namespace Hydrogen

noncomputable section

/-- Error taxonomy of the spec: invalid quantum numbers, or a missing
nuclear-mass parameter. The code raises `ValueError` in both cases; the
spec names them `InvalidQuantumNumbers` and `MissingParameter`. -/
inductive HError where
  | invalidQuantumNumbers
  | missingParameter
deriving DecidableEq, Repr

/-- Electron mass `m_e` in kg (`scipy.constants.m_e`, CODATA). -/
def mE : ℝ := 9.1093837015e-31

/-- Proton mass `m_p` in kg (`scipy.constants.m_p`, CODATA). -/
def mP : ℝ := 1.67262192369e-27

/-- Bohr radius `a0` in meters (`physical_constants["Bohr radius"][0]`). -/
def bohrRadius : ℝ := 5.29177210903e-11

/-- Modelled from the spec: the helper `reduced_electron_nucleus_mass(Z, M)`
is called by `radial_wavefunction_Rnl` and `compute_psi_xz_slice` but its
definition is not among the provided source files. Spec 4.3: returns the
two-body reduced mass `mu = (m_e * M)/(m_e + M)`; if `M` is omitted and
`Z = 1`, assume `M` is the proton mass; if `M` is omitted and `Z > 1`,
fail with a `MissingParameter` error. -/
def reduced_electron_nucleus_mass (Z : ℤ) (M : Option ℝ) : Except HError ℝ :=
  match M with
  | some Mv => .ok (mE * Mv / (mE + Mv))
  | none => if Z = 1 then .ok (mE * mP / (mE + mP)) else .error .missingParameter

/-- Modelled from the spec: the helper `reduced_bohr_radius(mu)` is called
by `radial_wavefunction_Rnl` and `compute_psi_xz_slice` but its definition
is not among the provided source files. Spec 4.3: the length scale is
`a_mu = a0 * (m_e / mu)`. -/
def reduced_bohr_radius (mu : ℝ) : ℝ := bohrRadius * (mE / mu)

/-- Resolution of the reduced mass as done at the top of
`radial_wavefunction_Rnl` and `compute_psi_xz_slice`:
`mu = reduced_electron_nucleus_mass(Z, M) if use_reduced_mass else m_e`. -/
def resolve_mu (Z : ℤ) (use_reduced_mass : Bool) (M : Option ℝ) : Except HError ℝ :=
  if use_reduced_mass then reduced_electron_nucleus_mass Z M else .ok mE

/-- Embedding of `scipy.special.eval_genlaguerre k alpha x`: the generalized Laguerre
polynomial `L_k^{(alpha)}(x)`, embedded through its standard three-term
recurrence `(k+2) L_{k+2} = ((2k+3+alpha-x) L_{k+1} - (k+1+alpha) L_k)`. -/
def eval_genlaguerre : ℕ → ℝ → ℝ → ℝ
  | 0, _, _ => 1
  | 1, a, x => 1 + a - x
  | (k+2), a, x =>
      ((2 * (k : ℝ) + 3 + a - x) * eval_genlaguerre (k+1) a x
        - ((k : ℝ) + 1 + a) * eval_genlaguerre k a x) / ((k : ℝ) + 2)

/-- Embedding of `scipy.special.gammaln x` for positive real `x`: the logarithm of the
Gamma function. -/
def gammaln (x : ℝ) : ℝ := Real.log (Real.Gamma x)

/-- Scalar core of `radial_wavefunction_Rnl` (lines 42-51), applied to one
radial sample once `a_mu` has been resolved:
`rho = 2 Z r / (n a_mu)`, `L = eval_genlaguerre (n-l-1) (2l+1) rho`,
`log_pref = 1.5 log(2Z/(n a_mu)) + 0.5 (gammaln(n-l) - (log(2n) + gammaln(n+l+1)))`,
result `= exp(log_pref) * exp(-rho/2) * rho^l * L`. -/
def radialCore (n l : ℕ) (Z : ℤ) (a_mu : ℝ) (r : ℝ) : ℝ :=
  let rho : ℝ := 2 * (Z : ℝ) * r / ((n : ℝ) * a_mu)
  let L : ℝ := eval_genlaguerre (n - l - 1) (2 * (l : ℝ) + 1) rho
  let log_pref : ℝ := 1.5 * Real.log (2 * (Z : ℝ) / ((n : ℝ) * a_mu))
    + 0.5 * (gammaln ((n : ℝ) - (l : ℝ)) - (Real.log (2 * (n : ℝ)) + gammaln ((n : ℝ) + (l : ℝ) + 1)))
  Real.exp log_pref * Real.exp (-rho / 2) * rho ^ l * L

/-- Embedding of `radial_wavefunction_Rnl(n, l, r, Z, use_reduced_mass, M)`
(src/hydrogen_wavefunction.py, lines 9-52): validates `n >= 1 and
0 <= l <= n-1` (else `InvalidQuantumNumbers`), resolves `mu` and `a_mu`,
then evaluates the stabilized radial formula elementwise on the array `r`
(modelled as a 2D list). -/
def radial_wavefunction_Rnl (n l : ℤ) (r : List (List ℝ)) (Z : ℤ)
    (use_reduced_mass : Bool) (M : Option ℝ) : Except HError (List (List ℝ)) :=
  if n ≥ 1 ∧ 0 ≤ l ∧ l ≤ n - 1 then
    match resolve_mu Z use_reduced_mass M with
    | .error e => .error e
    | .ok mu => .ok (r.map (List.map (radialCore n.toNat l.toNat Z (reduced_bohr_radius mu))))
  else .error .invalidQuantumNumbers

/-- Product of the first `m` odd numbers: the double factorial `(2m-1)!!`
appearing in the closed form of `P_m^m`. -/
def oddDoubleFact : ℕ → ℝ
  | 0 => 1
  | m + 1 => (2 * (m : ℝ) + 1) * oddDoubleFact m

/-- Upward recurrence for the associated Legendre functions with the
Condon-Shortley phase, as computed by `scipy.special` under
`sph_harm_y`: index `j` holds `P_{m+j}^m(x)`, seeded with
`P_m^m(x) = (-1)^m (2m-1)!! (1-x^2)^{m/2}` and
`P_{m+1}^m(x) = x (2m+1) P_m^m(x)`, and stepped with
`(l-m) P_l^m = (2l-1) x P_{l-1}^m - (l+m-1) P_{l-2}^m`. -/
def assocLegendreAux (m : ℕ) (x : ℝ) : ℕ → ℝ
  | 0 => (-1 : ℝ) ^ m * oddDoubleFact m * Real.sqrt (1 - x ^ 2) ^ m
  | 1 => x * (2 * (m : ℝ) + 1) * ((-1 : ℝ) ^ m * oddDoubleFact m * Real.sqrt (1 - x ^ 2) ^ m)
  | (j + 2) =>
      ((2 * (m : ℝ) + 2 * (j : ℝ) + 3) * x * assocLegendreAux m x (j + 1)
        - (2 * (m : ℝ) + (j : ℝ) + 1) * assocLegendreAux m x j) / ((j : ℝ) + 2)

/-- Associated Legendre function `P_l^m(x)` for `0 <= m <= l` (and `0`
when `m > l`, outside the domain used by the code). -/
def assocLegendre (l m : ℕ) (x : ℝ) : ℝ :=
  if m ≤ l then assocLegendreAux m x (l - m) else 0

/-- Associated Legendre function for a signed order, extended to `m < 0`
by `P_l^{-k}(x) = (-1)^k ((l-k)!/(l+k)!) P_l^k(x)`. -/
def assocLegendreZ (l : ℕ) (m : ℤ) (x : ℝ) : ℝ :=
  if 0 ≤ m then assocLegendre l m.toNat x
  else (-1 : ℝ) ^ m.natAbs
    * ((Nat.factorial (l - m.natAbs) : ℝ) / (Nat.factorial (l + m.natAbs) : ℝ))
    * assocLegendre l m.natAbs x

/-- Embedding of `scipy.special.sph_harm_y(l, m, theta, phi)`: the complex spherical
harmonic `Y_l^m(theta, phi) = sqrt((2l+1)/(4 pi) * (l-m)!/(l+m)!)
* P_l^m(cos theta) * e^{i m phi}` with `theta` the polar angle. -/
def sphHarmCore (l : ℕ) (m : ℤ) (theta phi : ℝ) : ℂ :=
  ((Real.sqrt ((2 * (l : ℝ) + 1) / (4 * Real.pi)
      * ((Nat.factorial ((l : ℤ) - m).toNat : ℝ) / (Nat.factorial ((l : ℤ) + m).toNat : ℝ)))
    * assocLegendreZ l m (Real.cos theta) : ℝ) : ℂ)
    * Complex.exp (Complex.I * (m : ℂ) * (phi : ℂ))

/-- Embedding of `spherical_harmonic_Ylm(l, m, theta, phi)`
(src/hydrogen_wavefunction.py, lines 55-73): validates `l >= 0 and
-l <= m <= l` (else `InvalidQuantumNumbers`), then evaluates the complex
spherical harmonic elementwise on the angle arrays. -/
def spherical_harmonic_Ylm (l m : ℤ) (theta phi : List (List ℝ)) :
    Except HError (List (List ℂ)) :=
  if l ≥ 0 ∧ -l ≤ m ∧ m ≤ l then
    .ok (List.zipWith (List.zipWith (sphHarmCore l.toNat m)) theta phi)
  else .error .invalidQuantumNumbers

/-- Embedding of `np.hypot x z = sqrt(x^2 + z^2)`. -/
def hypot (x z : ℝ) : ℝ := Real.sqrt (x ^ 2 + z ^ 2)

/-- Embedding of `np.clip a lo hi = min (max a lo) hi`. -/
def clip (a lo hi : ℝ) : ℝ := min (max a lo) hi

/-- Embedding of `np.linspace lo hi N`: `N` evenly spaced samples from `lo` to `hi`
inclusive (for `N = 1`, numpy returns `[lo]`). -/
def linspace (lo hi : ℝ) (N : ℕ) : List ℝ :=
  if N = 1 then [lo]
  else (List.range N).map (fun (i : ℕ) => lo + (i : ℝ) * ((hi - lo) / ((N : ℝ) - 1)))

/-- Entrywise construction of a 2D grid over `axis x axis` with
`meshgrid(axis, axis, indexing="ij")` semantics: entry `(i, j)` is
`f (axis j) (axis i)` where the first argument is the x-coordinate
(`Xg[i,j] = axis[j]`) and the second the z-coordinate
(`Zg[i,j] = axis[i]`). -/
def grid2 {α : Type} (axis : List ℝ) (f : ℝ → ℝ → α) : List (List α) :=
  axis.map (fun zi => axis.map (fun xj => f xj zi))

/-- Guarded cosine of the polar angle (lines 128-130):
`np.divide(Zg, r, out=cos_theta, where=(r > 0)); cos_theta[r == 0] = 1.0`.
Every entry of `r = hypot(Xg, Zg)` is nonnegative, so each entry is either
`z / r` (when `r > 0`) or `1` (when `r = 0`). -/
def cosThetaFun (x z : ℝ) : ℝ :=
  if hypot x z > 0 then z / hypot x z else 1

/-- Polar angle (line 132): `theta = arccos(clip(cos_theta, -1, 1))`. -/
def thetaFun (x z : ℝ) : ℝ := Real.arccos (clip (cosThetaFun x z) (-1) 1)

/-- Azimuthal-angle policy of the Slice Composer. -/
inductive PhiMode where
  | plane
  | constant
deriving DecidableEq, Repr

/-- Azimuthal angle (line 133):
`phi = np.where(Xg >= 0.0, 0.0, np.pi) if phi_mode == "plane" else
np.full_like(r, float(phi_value))`. -/
def phiFun (mode : PhiMode) (phi_value : ℝ) (x : ℝ) : ℝ :=
  match mode with
  | .plane => if x ≥ 0 then 0 else Real.pi
  | .constant => phi_value

/-- Result record of `compute_psi_xz_slice`: the two coordinate grids, the
complex wavefunction samples, and the reduced-mass Bohr radius. -/
structure SliceResult where
  Xg : List (List ℝ)
  Zg : List (List ℝ)
  psi : List (List ℂ)
  a_mu : ℝ

/-- Embedding of `compute_psi_xz_slice(n, l, m, Z, use_reduced_mass, M, extent_a_mu,
grid_points, phi_value, phi_mode)` (src/hydrogen_wavefunction.py, lines
76-140): validates the three quantum numbers, resolves `mu` and `a_mu`,
builds the square grid spanning `[-extent*a_mu, extent*a_mu]`, converts to
spherical coordinates with the guarded division and the azimuthal policy,
and composes `psi = R * Y` through the two evaluators. -/
def compute_psi_xz_slice (n l m : ℤ) (Z : ℤ) (use_reduced_mass : Bool)
    (M : Option ℝ) (extent_a_mu : ℝ) (grid_points : ℕ) (phi_value : ℝ)
    (phi_mode : PhiMode) : Except HError SliceResult :=
  if n ≥ 1 ∧ 0 ≤ l ∧ l ≤ n - 1 ∧ -l ≤ m ∧ m ≤ l then
    match resolve_mu Z use_reduced_mass M with
    | .error e => .error e
    | .ok mu =>
      let a_mu := reduced_bohr_radius mu
      let r_max := extent_a_mu * a_mu
      let axis := linspace (-r_max) r_max grid_points
      let Xg := grid2 axis (fun x _ => x)
      let Zg := grid2 axis (fun _ z => z)
      let rg := grid2 axis hypot
      let thetag := grid2 axis thetaFun
      let phig := grid2 axis (fun x _ => phiFun phi_mode phi_value x)
      match radial_wavefunction_Rnl n l rg Z use_reduced_mass M with
      | .error e => .error e
      | .ok R =>
        match spherical_harmonic_Ylm l m thetag phig with
        | .error e => .error e
        | .ok Y =>
          let psi := List.zipWith (List.zipWith (fun (a : ℝ) (b : ℂ) => (a : ℂ) * b)) R Y
          .ok ⟨Xg, Zg, psi, a_mu⟩
  else .error .invalidQuantumNumbers

/-- Embedding of `compute_probability_density(psi)` (src/hydrogen_wavefunction.py,
lines 143-152): `np.abs(psi) ** 2` elementwise. -/
def compute_probability_density (psi : List (List ℂ)) : List (List ℝ) :=
  psi.map (List.map (fun z => Complex.abs z ^ 2))

/-- Embedding of `sp.factorial k` at the nonnegative integer arguments used by the
naive radial function. -/
def spFactorial (k : ℕ) : ℝ := (Nat.factorial k : ℝ)

/-- Naive historical `radial_function(n, l, r, a0)`
(src/hydrogen_wavefunction_annotated.py, lines 19-60): factorial-based
normalization constant with Python precedence `(2 / n * a0) ** 3`
(that is, `((2 / n) * a0) ** 3`), then
`constant_factor * exp(-p/2) * p^l * laguerre(p)` with `p = 2r/(n a0)`. -/
def radial_function (n l : ℕ) (r : ℝ) (a0 : ℝ) : ℝ :=
  let p : ℝ := 2 * r / ((n : ℝ) * a0)
  let constant_factor : ℝ := Real.sqrt
    (((2 / (n : ℝ) * a0) ^ 3 * spFactorial (n - l - 1)) / (2 * (n : ℝ) * spFactorial (n + l)))
  constant_factor * Real.exp (-p / 2) * p ^ l * eval_genlaguerre (n - l - 1) (2 * (l : ℝ) + 1) p

/-! Helper lemmas shared across the claim theorems. -/

theorem resolve_mu_shape (Z : ℤ) (urm : Bool) (M : Option ℝ) :
    (∃ mu, resolve_mu Z urm M = .ok mu) ∨ resolve_mu Z urm M = .error .missingParameter := by
  cases urm with
  | false => exact Or.inl ⟨mE, rfl⟩
  | true =>
    rcases M with _ | Mv
    · by_cases hZ : Z = 1
      · exact Or.inl ⟨mE * mP / (mE + mP), by
          simp [resolve_mu, reduced_electron_nucleus_mass, hZ]⟩
      · exact Or.inr (by simp [resolve_mu, reduced_electron_nucleus_mass, hZ])
    · exact Or.inl ⟨mE * Mv / (mE + Mv), rfl⟩

theorem resolve_mu_ne_iqn (Z : ℤ) (urm : Bool) (M : Option ℝ) :
    resolve_mu Z urm M ≠ .error .invalidQuantumNumbers := by
  rcases resolve_mu_shape Z urm M with ⟨mu, h⟩ | h <;> simp [h]

theorem radial_ok {n l Z : ℤ} {urm : Bool} {M : Option ℝ} {mu : ℝ}
    (hq : n ≥ 1 ∧ 0 ≤ l ∧ l ≤ n - 1) (hmu : resolve_mu Z urm M = .ok mu)
    (r : List (List ℝ)) :
    radial_wavefunction_Rnl n l r Z urm M
      = .ok (r.map (List.map (radialCore n.toNat l.toNat Z (reduced_bohr_radius mu)))) := by
  simp only [radial_wavefunction_Rnl, if_pos hq, hmu]

theorem spherical_ok {l m : ℤ} (hq : l ≥ 0 ∧ -l ≤ m ∧ m ≤ l) (theta phi : List (List ℝ)) :
    spherical_harmonic_Ylm l m theta phi
      = .ok (List.zipWith (List.zipWith (sphHarmCore l.toNat m)) theta phi) := by
  simp only [spherical_harmonic_Ylm, if_pos hq]

theorem composer_ok {n l m Z : ℤ} {urm : Bool} {M : Option ℝ} {mu : ℝ}
    (hq : n ≥ 1 ∧ 0 ≤ l ∧ l ≤ n - 1 ∧ -l ≤ m ∧ m ≤ l)
    (hmu : resolve_mu Z urm M = .ok mu)
    (extent_a_mu : ℝ) (grid_points : ℕ) (phi_value : ℝ) (phi_mode : PhiMode) :
    compute_psi_xz_slice n l m Z urm M extent_a_mu grid_points phi_value phi_mode
      = .ok ⟨grid2 (linspace (-(extent_a_mu * reduced_bohr_radius mu))
                (extent_a_mu * reduced_bohr_radius mu) grid_points) (fun x _ => x),
             grid2 (linspace (-(extent_a_mu * reduced_bohr_radius mu))
                (extent_a_mu * reduced_bohr_radius mu) grid_points) (fun _ z => z),
             List.zipWith (List.zipWith (fun (a : ℝ) (b : ℂ) => (a : ℂ) * b))
               ((grid2 (linspace (-(extent_a_mu * reduced_bohr_radius mu))
                  (extent_a_mu * reduced_bohr_radius mu) grid_points) hypot).map
                 (List.map (radialCore n.toNat l.toNat Z (reduced_bohr_radius mu))))
               (List.zipWith (List.zipWith (sphHarmCore l.toNat m))
                 (grid2 (linspace (-(extent_a_mu * reduced_bohr_radius mu))
                    (extent_a_mu * reduced_bohr_radius mu) grid_points) thetaFun)
                 (grid2 (linspace (-(extent_a_mu * reduced_bohr_radius mu))
                    (extent_a_mu * reduced_bohr_radius mu) grid_points)
                   (fun x _ => phiFun phi_mode phi_value x))),
             reduced_bohr_radius mu⟩ := by
  have hq3 : n ≥ 1 ∧ 0 ≤ l ∧ l ≤ n - 1 := ⟨hq.1, hq.2.1, hq.2.2.1⟩
  have hq2 : l ≥ 0 ∧ -l ≤ m ∧ m ≤ l := ⟨hq.2.1, hq.2.2.2.1, hq.2.2.2.2⟩
  simp only [compute_psi_xz_slice, if_pos hq, hmu]
  rw [radial_ok hq3 hmu, spherical_ok hq2]

/-- C3: when the reduced-mass flag is true, the resolution used by the
Radial Evaluator and the Slice Composer follows the policy: if `M` is
omitted and `Z = 1`, `M` defaults to the proton mass and the reduced mass
is `m_e*m_p/(m_e+m_p)`; if `M` is omitted and `Z > 1`, the call fails with
a `MissingParameter` error; the length scale is `a_mu = a0 * (m_e / mu)`;
and when the flag is false, `mu = m_e`, so `a_mu` equals the bare Bohr
radius `a0` exactly. -/
theorem C3_reduced_mass_policy :
    (resolve_mu 1 true none = .ok (mE * mP / (mE + mP))) ∧
    (∀ Z : ℤ, 1 < Z → resolve_mu Z true none = .error .missingParameter) ∧
    (∀ mu : ℝ, reduced_bohr_radius mu = bohrRadius * (mE / mu)) ∧
    (∀ (Z : ℤ) (M : Option ℝ), resolve_mu Z false M = .ok mE) ∧
    reduced_bohr_radius mE = bohrRadius := by
  refine ⟨rfl, ?_, fun _ => rfl, fun _ _ => rfl, ?_⟩
  · intro Z hZ
    have : Z ≠ 1 := by omega
    simp [resolve_mu, reduced_electron_nucleus_mass, this]
  · have hme : mE ≠ 0 := by norm_num [mE]
    simp [reduced_bohr_radius, div_self hme]

/-- Witness for C3 at `Z = 2`. -/
theorem C3_reduced_mass_policy_witness :
    (1 : ℤ) < 2 ∧ resolve_mu 2 true none = .error .missingParameter :=
  ⟨by decide, C3_reduced_mass_policy.2.1 2 (by decide)⟩

/-- C4: each core entry point returns the `InvalidQuantumNumbers` error
exactly when its quantum-number precondition is violated (`n >= 1` and
`0 <= l <= n-1` for the Radial Evaluator; `l >= 0` and `-l <= m <= l` for
the Angular Evaluator; all three constraints simultaneously for the Slice
Composer); the `Except` result is the whole output, so a failing call
returns no partial results; in particular the composer fires for
`(n = 0, ...)`, `(n = 2, l = 2, ...)` and `(n = 2, l = 1, m = 2)`. -/
theorem C4_invalid_quantum_numbers :
    (∀ (n l : ℤ) (r : List (List ℝ)) (Z : ℤ) (urm : Bool) (M : Option ℝ),
      radial_wavefunction_Rnl n l r Z urm M = .error .invalidQuantumNumbers
        ↔ ¬(n ≥ 1 ∧ 0 ≤ l ∧ l ≤ n - 1)) ∧
    (∀ (l m : ℤ) (theta phi : List (List ℝ)),
      spherical_harmonic_Ylm l m theta phi = .error .invalidQuantumNumbers
        ↔ ¬(l ≥ 0 ∧ -l ≤ m ∧ m ≤ l)) ∧
    (∀ (n l m Z : ℤ) (urm : Bool) (M : Option ℝ) (ext : ℝ) (N : ℕ) (pv : ℝ) (pm : PhiMode),
      compute_psi_xz_slice n l m Z urm M ext N pv pm = .error .invalidQuantumNumbers
        ↔ ¬(n ≥ 1 ∧ 0 ≤ l ∧ l ≤ n - 1 ∧ -l ≤ m ∧ m ≤ l)) ∧
    (∀ (l m Z : ℤ) (urm : Bool) (M : Option ℝ) (ext : ℝ) (N : ℕ) (pv : ℝ) (pm : PhiMode),
      compute_psi_xz_slice 0 l m Z urm M ext N pv pm = .error .invalidQuantumNumbers) ∧
    (∀ (m Z : ℤ) (urm : Bool) (M : Option ℝ) (ext : ℝ) (N : ℕ) (pv : ℝ) (pm : PhiMode),
      compute_psi_xz_slice 2 2 m Z urm M ext N pv pm = .error .invalidQuantumNumbers) ∧
    (∀ (Z : ℤ) (urm : Bool) (M : Option ℝ) (ext : ℝ) (N : ℕ) (pv : ℝ) (pm : PhiMode),
      compute_psi_xz_slice 2 1 2 Z urm M ext N pv pm = .error .invalidQuantumNumbers) := by
  have hcomp : ∀ (n l m Z : ℤ) (urm : Bool) (M : Option ℝ) (ext : ℝ) (N : ℕ)
      (pv : ℝ) (pm : PhiMode),
      compute_psi_xz_slice n l m Z urm M ext N pv pm = .error .invalidQuantumNumbers
        ↔ ¬(n ≥ 1 ∧ 0 ≤ l ∧ l ≤ n - 1 ∧ -l ≤ m ∧ m ≤ l) := by
    intro n l m Z urm M ext N pv pm
    by_cases h : n ≥ 1 ∧ 0 ≤ l ∧ l ≤ n - 1 ∧ -l ≤ m ∧ m ≤ l
    · rcases resolve_mu_shape Z urm M with ⟨mu, hmu⟩ | hmu
      · rw [composer_ok h hmu]
        simp [h]
      · simp only [compute_psi_xz_slice, if_pos h, hmu]
        simp [h]
    · simp [compute_psi_xz_slice, if_neg h, h]
  refine ⟨?_, ?_, hcomp, ?_, ?_, ?_⟩
  · intro n l r Z urm M
    by_cases h : n ≥ 1 ∧ 0 ≤ l ∧ l ≤ n - 1
    · rcases resolve_mu_shape Z urm M with ⟨mu, hmu⟩ | hmu
      · rw [radial_ok h hmu]
        simp [h]
      · simp only [radial_wavefunction_Rnl, if_pos h, hmu]
        simp [h]
    · simp [radial_wavefunction_Rnl, if_neg h, h]
  · intro l m theta phi
    by_cases h : l ≥ 0 ∧ -l ≤ m ∧ m ≤ l
    · rw [spherical_ok h]
      simp [h]
    · simp [spherical_harmonic_Ylm, if_neg h, h]
  · intro l m Z urm M ext N pv pm
    exact (hcomp 0 l m Z urm M ext N pv pm).mpr (by intro hc; omega)
  · intro m Z urm M ext N pv pm
    exact (hcomp 2 2 m Z urm M ext N pv pm).mpr (by intro hc; omega)
  · intro Z urm M ext N pv pm
    exact (hcomp 2 1 2 Z urm M ext N pv pm).mpr (by intro hc; omega)

/-- C5: in the Slice Composer coordinate conversion, at every grid point
with coordinates `(x, z)`: `r = hypot x z`; where `r > 0` the cosine of
the polar angle is `z / r`; where `r = 0` it is set to `1`; the value fed
to `arccos` is clipped into `[-1, 1]`, so `theta = arccos (clip ...)` is
well-defined (lands in `[0, pi]`) at every grid point including the
origin, and the division is guarded. -/
theorem C5_coordinate_conversion (x z : ℝ) :
    (hypot x z = 0 → cosThetaFun x z = 1) ∧
    (0 < hypot x z → cosThetaFun x z = z / hypot x z) ∧
    clip (cosThetaFun x z) (-1) 1 ∈ Set.Icc (-1 : ℝ) 1 ∧
    thetaFun x z = Real.arccos (clip (cosThetaFun x z) (-1) 1) ∧
    thetaFun x z ∈ Set.Icc 0 Real.pi := by
  refine ⟨?_, ?_, ?_, rfl, ?_⟩
  · intro h
    simp [cosThetaFun, h]
  · intro h
    simp [cosThetaFun, h]
  · constructor
    · exact le_min (le_max_right _ _) (by norm_num)
    · exact min_le_right _ _
  · exact ⟨Real.arccos_nonneg _, Real.arccos_le_pi _⟩

/-- Witness for C5 at the origin and at `(3, 4)`. -/
theorem C5_coordinate_conversion_witness :
    hypot 0 0 = 0 ∧ cosThetaFun 0 0 = 1 ∧
    0 < hypot 3 4 ∧ cosThetaFun 3 4 = 4 / hypot 3 4 := by
  have h0 : hypot 0 0 = 0 := by simp [hypot]
  have h1 : 0 < hypot 3 4 := Real.sqrt_pos.mpr (by norm_num)
  exact ⟨h0, (C5_coordinate_conversion 0 0).1 h0, h1,
    (C5_coordinate_conversion 3 4).2.1 h1⟩

/-- C6: under `phi_mode = "plane"` the azimuthal angle is `0` at every
grid point with nonnegative x-coordinate and `pi` at every grid point
with negative x-coordinate; under `phi_mode = "constant"` it equals the
caller-supplied `phi_value` uniformly. -/
theorem C6_phi_policy (phi_value x : ℝ) :
    (0 ≤ x → phiFun .plane phi_value x = 0) ∧
    (x < 0 → phiFun .plane phi_value x = Real.pi) ∧
    phiFun .constant phi_value x = phi_value := by
  refine ⟨?_, ?_, rfl⟩
  · intro h
    simp [phiFun, h]
  · intro h
    simp [phiFun, not_le.mpr h]

/-- Witness for C6 at `x = 1` and `x = -1`. -/
theorem C6_phi_policy_witness :
    (0 : ℝ) ≤ 1 ∧ phiFun .plane 5 1 = 0 ∧
    (-1 : ℝ) < 0 ∧ phiFun .plane 5 (-1) = Real.pi ∧
    phiFun .constant 5 (-1) = 5 :=
  ⟨by norm_num, (C6_phi_policy 5 1).1 (by norm_num), by norm_num,
    (C6_phi_policy 5 (-1)).2.1 (by norm_num), (C6_phi_policy 5 (-1)).2.2⟩

/-- C8: `compute_probability_density` is the elementwise squared
magnitude: it preserves the shape of `psi`, every entry is nonnegative,
and on a separable sample `psi = R * Y` (as composed by the Slice
Composer) it equals `|R|^2 * |Y|^2` elementwise. -/
theorem C8_probability_density :
    (∀ psi : List (List ℂ),
      (compute_probability_density psi).map List.length = psi.map List.length) ∧
    (∀ psi : List (List ℂ), ∀ row ∈ compute_probability_density psi, ∀ v ∈ row, 0 ≤ v) ∧
    (∀ (R : List (List ℝ)) (Y : List (List ℂ)),
      compute_probability_density
          (List.zipWith (List.zipWith (fun (a : ℝ) (b : ℂ) => (a : ℂ) * b)) R Y)
        = List.zipWith (List.zipWith (fun (a : ℝ) (b : ℂ) =>
            Complex.abs (a : ℂ) ^ 2 * Complex.abs b ^ 2)) R Y) := by
  refine ⟨?_, ?_, ?_⟩
  · intro psi
    simp [compute_probability_density, List.map_map, Function.comp]
  · intro psi row hrow v hv
    simp only [compute_probability_density, List.mem_map] at hrow
    obtain ⟨row0, _, rfl⟩ := hrow
    simp only [List.mem_map] at hv
    obtain ⟨z, _, rfl⟩ := hv
    positivity
  · intro R Y
    unfold compute_probability_density
    rw [List.map_zipWith]
    congr 1
    funext a b
    rw [List.map_zipWith]
    congr 1
    funext x y
    rw [map_mul, mul_pow]

/-- Witness for C8 at the one-entry sample `[[i]]`. -/
theorem C8_probability_density_witness : 0 ≤ Complex.abs Complex.I ^ 2 :=
  C8_probability_density.2.1 [[Complex.I]] [Complex.abs Complex.I ^ 2]
    (by simp [compute_probability_density]) (Complex.abs Complex.I ^ 2) (by simp)

/-- C10: when the Slice Composer's combined `(n, l, m)` check passes, the
`InvalidQuantumNumbers` branches inside the `radial_wavefunction_Rnl` and
`spherical_harmonic_Ylm` calls it makes are unreachable: the composer's
condition implies both callees' preconditions, so the radial call never
returns `InvalidQuantumNumbers` and the angular call always succeeds. -/
theorem C10_composer_check_covers_callees (n l m : ℤ)
    (h : n ≥ 1 ∧ 0 ≤ l ∧ l ≤ n - 1 ∧ -l ≤ m ∧ m ≤ l) :
    (n ≥ 1 ∧ 0 ≤ l ∧ l ≤ n - 1) ∧ (l ≥ 0 ∧ -l ≤ m ∧ m ≤ l) ∧
    (∀ (r : List (List ℝ)) (Z : ℤ) (urm : Bool) (M : Option ℝ),
      radial_wavefunction_Rnl n l r Z urm M ≠ .error .invalidQuantumNumbers) ∧
    (∀ theta phi : List (List ℝ),
      spherical_harmonic_Ylm l m theta phi
        = .ok (List.zipWith (List.zipWith (sphHarmCore l.toNat m)) theta phi)) := by
  have h3 : n ≥ 1 ∧ 0 ≤ l ∧ l ≤ n - 1 := ⟨h.1, h.2.1, h.2.2.1⟩
  have h2 : l ≥ 0 ∧ -l ≤ m ∧ m ≤ l := ⟨h.2.1, h.2.2.2.1, h.2.2.2.2⟩
  refine ⟨h3, h2, ?_, fun theta phi => spherical_ok h2 theta phi⟩
  intro r Z urm M
  rcases resolve_mu_shape Z urm M with ⟨mu, hmu⟩ | hmu
  · rw [radial_ok h3 hmu]
    simp
  · simp only [radial_wavefunction_Rnl, if_pos h3, hmu]
    simp

/-- Witness for C10 at `(n, l, m) = (2, 1, 0)`. -/
theorem C10_composer_check_covers_callees_witness :
    ((2 : ℤ) ≥ 1 ∧ (0 : ℤ) ≤ 1 ∧ (1 : ℤ) ≤ 2 - 1 ∧ -(1 : ℤ) ≤ 0 ∧ (0 : ℤ) ≤ 1) ∧
    (((2 : ℤ) ≥ 1 ∧ (0 : ℤ) ≤ 1 ∧ (1 : ℤ) ≤ 2 - 1) ∧
      ((1 : ℤ) ≥ 0 ∧ -(1 : ℤ) ≤ 0 ∧ (0 : ℤ) ≤ 1) ∧
      (∀ (r : List (List ℝ)) (Z : ℤ) (urm : Bool) (M : Option ℝ),
        radial_wavefunction_Rnl 2 1 r Z urm M ≠ .error .invalidQuantumNumbers) ∧
      (∀ theta phi : List (List ℝ),
        spherical_harmonic_Ylm 1 0 theta phi
          = .ok (List.zipWith (List.zipWith (sphHarmCore (1 : ℤ).toNat 0)) theta phi))) :=
  ⟨by decide, C10_composer_check_covers_callees 2 1 0 (by decide)⟩

/-- C1: for valid `(n, l, Z)` and a successfully resolved reduced mass,
the Radial Evaluator returns, elementwise on the array `r`, the value
`pref * exp(-rho/2) * rho^l * L(rho)` with `rho = 2 Z r / (n a_mu)`, `L`
the generalized Laguerre polynomial of degree `n-l-1` with parameter
`2l+1`, and `pref = exp(1.5 log(2Z/(n a_mu)) + 0.5 (log_gamma(n-l)
- log(2n) - log_gamma(n+l+1)))`; the result is real-valued with the shape
of `r`. -/
theorem C1_radial_evaluator_formula (n l Z : ℤ) (urm : Bool) (M : Option ℝ) (mu : ℝ)
    (hn : 1 ≤ n) (hl0 : 0 ≤ l) (hln : l ≤ n - 1) (_hZ : 1 ≤ Z)
    (hmu : resolve_mu Z urm M = .ok mu) (r : List (List ℝ)) :
    radial_wavefunction_Rnl n l r Z urm M
      = .ok (r.map (List.map (fun rv =>
          Real.exp (1.5 * Real.log (2 * (Z : ℝ) / ((n : ℝ) * reduced_bohr_radius mu))
              + 0.5 * (gammaln ((n : ℝ) - (l : ℝ)) - Real.log (2 * (n : ℝ))
                - gammaln ((n : ℝ) + (l : ℝ) + 1)))
            * Real.exp (-(2 * (Z : ℝ) * rv / ((n : ℝ) * reduced_bohr_radius mu)) / 2)
            * (2 * (Z : ℝ) * rv / ((n : ℝ) * reduced_bohr_radius mu)) ^ l.toNat
            * eval_genlaguerre (n - l - 1).toNat (2 * (l : ℝ) + 1)
                (2 * (Z : ℝ) * rv / ((n : ℝ) * reduced_bohr_radius mu)))))
    ∧ (∀ out, radial_wavefunction_Rnl n l r Z urm M = .ok out →
        out.map List.length = r.map List.length ∧ out.length = r.length) := by
  have hnn : ((n.toNat : ℕ) : ℝ) = (n : ℝ) := by
    rw [← Int.cast_natCast, Int.toNat_of_nonneg (by omega)]
  have hll : ((l.toNat : ℕ) : ℝ) = (l : ℝ) := by
    rw [← Int.cast_natCast, Int.toNat_of_nonneg (by omega)]
  have hdeg : n.toNat - l.toNat - 1 = (n - l - 1).toNat := by omega
  have hkey : radial_wavefunction_Rnl n l r Z urm M
      = .ok (r.map (List.map (radialCore n.toNat l.toNat Z (reduced_bohr_radius mu)))) :=
    radial_ok ⟨hn, hl0, hln⟩ hmu r
  have hfg : radialCore n.toNat l.toNat Z (reduced_bohr_radius mu)
      = (fun rv =>
          Real.exp (1.5 * Real.log (2 * (Z : ℝ) / ((n : ℝ) * reduced_bohr_radius mu))
              + 0.5 * (gammaln ((n : ℝ) - (l : ℝ)) - Real.log (2 * (n : ℝ))
                - gammaln ((n : ℝ) + (l : ℝ) + 1)))
            * Real.exp (-(2 * (Z : ℝ) * rv / ((n : ℝ) * reduced_bohr_radius mu)) / 2)
            * (2 * (Z : ℝ) * rv / ((n : ℝ) * reduced_bohr_radius mu)) ^ l.toNat
            * eval_genlaguerre (n - l - 1).toNat (2 * (l : ℝ) + 1)
                (2 * (Z : ℝ) * rv / ((n : ℝ) * reduced_bohr_radius mu))) := by
    funext rv
    simp only [radialCore]
    rw [hnn, hll, hdeg]
    ring_nf
  constructor
  · rw [hkey, hfg]
  · intro out hout
    rw [hkey] at hout
    obtain rfl := (Except.ok.injEq _ _).mp hout.symm
    exact ⟨by simp [List.map_map, Function.comp], List.length_map _ _⟩

/-- Witness for C1 at `(n, l, Z) = (1, 0, 1)` with the reduced-mass flag
off and `r = [[2]]`. -/
theorem C1_radial_evaluator_formula_witness :
    (1 : ℤ) ≤ 1 ∧ (0 : ℤ) ≤ 0 ∧ (0 : ℤ) ≤ 1 - 1 ∧
    resolve_mu 1 false none = .ok mE ∧
    radial_wavefunction_Rnl 1 0 [[2]] 1 false none
      = .ok ([[(2 : ℝ)]].map (List.map (fun rv =>
          Real.exp (1.5 * Real.log (2 * ((1 : ℤ) : ℝ) / (((1 : ℤ) : ℝ) * reduced_bohr_radius mE))
              + 0.5 * (gammaln (((1 : ℤ) : ℝ) - ((0 : ℤ) : ℝ)) - Real.log (2 * ((1 : ℤ) : ℝ))
                - gammaln (((1 : ℤ) : ℝ) + ((0 : ℤ) : ℝ) + 1)))
            * Real.exp (-(2 * ((1 : ℤ) : ℝ) * rv / (((1 : ℤ) : ℝ) * reduced_bohr_radius mE)) / 2)
            * (2 * ((1 : ℤ) : ℝ) * rv / (((1 : ℤ) : ℝ) * reduced_bohr_radius mE)) ^ (0 : ℤ).toNat
            * eval_genlaguerre ((1 : ℤ) - 0 - 1).toNat (2 * ((0 : ℤ) : ℝ) + 1)
                (2 * ((1 : ℤ) : ℝ) * rv / (((1 : ℤ) : ℝ) * reduced_bohr_radius mE))))) :=
  ⟨by decide, by decide, by decide, rfl,
    (C1_radial_evaluator_formula 1 0 1 false none mE (by decide) (by decide) (by decide)
      (by decide) rfl [[2]]).1⟩

theorem exists_of_mem_zipWith {α β γ : Type} {f : α → β → γ} :
    ∀ {l1 : List α} {l2 : List β} {c : γ},
      c ∈ List.zipWith f l1 l2 → ∃ a ∈ l1, ∃ b ∈ l2, c = f a b := by
  intro l1
  induction l1 with
  | nil => intro l2 c hc; simp at hc
  | cons a t ih =>
    intro l2 c hc
    cases l2 with
    | nil => simp at hc
    | cons b t2 =>
      simp only [List.zipWith_cons_cons, List.mem_cons] at hc
      rcases hc with rfl | hc
      · exact ⟨a, by simp, b, by simp, rfl⟩
      · obtain ⟨a2, ha, b2, hb, rfl⟩ := ih hc
        exact ⟨a2, by simp [ha], b2, by simp [hb], rfl⟩

theorem linspace_length (a b : ℝ) (N : ℕ) : (linspace a b N).length = N := by
  unfold linspace
  split
  · simp [*]
  · simp

theorem linspace_mem_Icc (a b : ℝ) (N : ℕ) (hab : a ≤ b) :
    ∀ v ∈ linspace a b N, v ∈ Set.Icc a b := by
  intro v hv
  unfold linspace at hv
  split at hv
  · simp only [List.mem_singleton] at hv
    exact ⟨hv.ge, hv.le.trans hab⟩
  · rename_i hN1
    simp only [List.mem_map, List.mem_range] at hv
    obtain ⟨i, hiN, rfl⟩ := hv
    have hN2 : 2 ≤ N := by omega
    have hNR : (2 : ℝ) ≤ (N : ℝ) := by exact_mod_cast hN2
    have hden : (0 : ℝ) < (N : ℝ) - 1 := by linarith
    have hstep : 0 ≤ (b - a) / ((N : ℝ) - 1) := div_nonneg (by linarith) (le_of_lt hden)
    constructor
    · have := mul_nonneg (Nat.cast_nonneg (α := ℝ) i) hstep
      linarith
    · have hiR : (i : ℝ) ≤ (N : ℝ) - 1 := by
        have : (i : ℝ) + 1 ≤ (N : ℝ) := by exact_mod_cast Nat.succ_le_of_lt hiN
        linarith
      have h1 : (i : ℝ) * ((b - a) / ((N : ℝ) - 1))
          ≤ ((N : ℝ) - 1) * ((b - a) / ((N : ℝ) - 1)) :=
        mul_le_mul_of_nonneg_right hiR hstep
      have h2 : ((N : ℝ) - 1) * ((b - a) / ((N : ℝ) - 1)) = b - a := by
        field_simp
      linarith

theorem linspace_first (a b : ℝ) (N : ℕ) (hN : 1 ≤ N) : a ∈ linspace a b N := by
  unfold linspace
  split
  · simp
  · refine List.mem_map.mpr ⟨0, ?_, by simp⟩
    simp only [List.mem_range]
    omega

theorem linspace_last (a b : ℝ) (N : ℕ) (hN : 2 ≤ N) : b ∈ linspace a b N := by
  unfold linspace
  rw [if_neg (by omega)]
  refine List.mem_map.mpr ⟨N - 1, by simp only [List.mem_range]; omega, ?_⟩
  have hcast : ((N - 1 : ℕ) : ℝ) = (N : ℝ) - 1 := by
    push_cast [Nat.cast_sub (by omega : 1 ≤ N)]
    ring
  have hNR : (2 : ℝ) ≤ (N : ℝ) := by exact_mod_cast hN
  have hne : (N : ℝ) - 1 ≠ 0 := by linarith
  rw [hcast]
  field_simp

theorem grid2_length {α : Type} (axis : List ℝ) (f : ℝ → ℝ → α) :
    (grid2 axis f).length = axis.length := List.length_map _ _

theorem grid2_row_length {α : Type} (axis : List ℝ) (f : ℝ → ℝ → α) :
    ∀ row ∈ grid2 axis f, row.length = axis.length := by
  intro row hrow
  obtain ⟨zi, _, rfl⟩ := List.mem_map.mp hrow
  exact List.length_map _ _

/-- C7: for positive `extent_a_mu`, `grid_points >= 1`, valid quantum
numbers and resolvable physical parameters, `compute_psi_xz_slice`
returns grids `Xg`, `Zg` and samples `psi` all of shape
`(grid_points, grid_points)`, with every axis coordinate inside
`[-extent_a_mu * a_mu, extent_a_mu * a_mu]` and both interval endpoints
attained on the axis (the right endpoint as soon as there are at least
two grid points), and a strictly positive scalar `a_mu`. -/
theorem C7_slice_composer_shapes (n l m Z : ℤ) (urm : Bool) (M : Option ℝ) (mu : ℝ)
    (extent_a_mu : ℝ) (grid_points : ℕ) (phi_value : ℝ) (phi_mode : PhiMode)
    (hq : n ≥ 1 ∧ 0 ≤ l ∧ l ≤ n - 1 ∧ -l ≤ m ∧ m ≤ l)
    (hmu : resolve_mu Z urm M = .ok mu) (hmupos : 0 < mu)
    (hext : 0 < extent_a_mu) (hN : 1 ≤ grid_points) :
    ∃ res : SliceResult,
      compute_psi_xz_slice n l m Z urm M extent_a_mu grid_points phi_value phi_mode
        = .ok res ∧
      0 < res.a_mu ∧
      res.Xg.length = grid_points ∧ res.Zg.length = grid_points ∧
      res.psi.length = grid_points ∧
      (∀ row ∈ res.Xg, row.length = grid_points) ∧
      (∀ row ∈ res.Zg, row.length = grid_points) ∧
      (∀ row ∈ res.psi, row.length = grid_points) ∧
      (∀ row ∈ res.Xg, ∀ v ∈ row,
        v ∈ Set.Icc (-(extent_a_mu * res.a_mu)) (extent_a_mu * res.a_mu)) ∧
      (∀ row ∈ res.Zg, ∀ v ∈ row,
        v ∈ Set.Icc (-(extent_a_mu * res.a_mu)) (extent_a_mu * res.a_mu)) ∧
      (-(extent_a_mu * res.a_mu))
        ∈ linspace (-(extent_a_mu * res.a_mu)) (extent_a_mu * res.a_mu) grid_points ∧
      (2 ≤ grid_points → (extent_a_mu * res.a_mu)
        ∈ linspace (-(extent_a_mu * res.a_mu)) (extent_a_mu * res.a_mu) grid_points) := by
  have hamupos : 0 < reduced_bohr_radius mu := by
    have h1 : (0 : ℝ) < bohrRadius := by norm_num [bohrRadius]
    have h2 : (0 : ℝ) < mE := by norm_num [mE]
    exact mul_pos h1 (div_pos h2 hmupos)
  set a_mu := reduced_bohr_radius mu with ha_mu
  set axis := linspace (-(extent_a_mu * a_mu)) (extent_a_mu * a_mu) grid_points with haxis
  have hlo_hi : -(extent_a_mu * a_mu) ≤ extent_a_mu * a_mu := by nlinarith
  have haxlen : axis.length = grid_points := linspace_length _ _ _
  have haxmem : ∀ v ∈ axis, v ∈ Set.Icc (-(extent_a_mu * a_mu)) (extent_a_mu * a_mu) :=
    linspace_mem_Icc _ _ _ hlo_hi
  refine ⟨_, composer_ok hq hmu extent_a_mu grid_points phi_value phi_mode, ?_, ?_, ?_, ?_,
    ?_, ?_, ?_, ?_, ?_, ?_, ?_⟩
  · exact hamupos
  · exact (grid2_length _ _).trans haxlen
  · exact (grid2_length _ _).trans haxlen
  · rw [List.length_zipWith, List.length_map, grid2_length, List.length_zipWith,
      grid2_length, grid2_length, haxlen]
    omega
  · intro row hrow
    exact (grid2_row_length _ _ row hrow).trans haxlen
  · intro row hrow
    exact (grid2_row_length _ _ row hrow).trans haxlen
  · intro row hrow
    obtain ⟨rrow, hr, yrow, hy, rfl⟩ := exists_of_mem_zipWith hrow
    obtain ⟨rrow0, hr0, rfl⟩ := List.mem_map.mp hr
    obtain ⟨trow, ht, prow, hp, rfl⟩ := exists_of_mem_zipWith hy
    rw [List.length_zipWith, List.length_map, grid2_row_length _ _ _ hr0,
      List.length_zipWith, grid2_row_length _ _ _ ht, grid2_row_length _ _ _ hp, haxlen]
    omega
  · intro row hrow v hv
    obtain ⟨zi, _, rfl⟩ := List.mem_map.mp hrow
    simp only [List.mem_map] at hv
    obtain ⟨xj, hxj, rfl⟩ := hv
    exact haxmem _ hxj
  · intro row hrow v hv
    obtain ⟨zi, hzi, rfl⟩ := List.mem_map.mp hrow
    simp only [List.mem_map] at hv
    obtain ⟨xj, _, rfl⟩ := hv
    exact haxmem _ hzi
  · exact linspace_first _ _ _ hN
  · intro h2
    exact linspace_last _ _ _ h2

/-- Witness for C7 at the spec scenario `(n, l, m) = (1, 0, 0)`, `Z = 1`,
reduced mass on, `extent_a_mu = 5`, `grid_points = 4`. -/
theorem C7_slice_composer_shapes_witness :
    ((1 : ℤ) ≥ 1 ∧ (0 : ℤ) ≤ 0 ∧ (0 : ℤ) ≤ 1 - 1 ∧ -(0 : ℤ) ≤ 0 ∧ (0 : ℤ) ≤ 0) ∧
    resolve_mu 1 true none = .ok (mE * mP / (mE + mP)) ∧
    0 < mE * mP / (mE + mP) ∧ (0 : ℝ) < 5 ∧ (1 : ℕ) ≤ 4 ∧
    (∃ res : SliceResult,
      compute_psi_xz_slice 1 0 0 1 true none 5 4 0 .plane = .ok res ∧
      0 < res.a_mu ∧
      res.Xg.length = 4 ∧ res.Zg.length = 4 ∧ res.psi.length = 4 ∧
      (∀ row ∈ res.Xg, row.length = 4) ∧
      (∀ row ∈ res.Zg, row.length = 4) ∧
      (∀ row ∈ res.psi, row.length = 4) ∧
      (∀ row ∈ res.Xg, ∀ v ∈ row, v ∈ Set.Icc (-(5 * res.a_mu)) (5 * res.a_mu)) ∧
      (∀ row ∈ res.Zg, ∀ v ∈ row, v ∈ Set.Icc (-(5 * res.a_mu)) (5 * res.a_mu)) ∧
      (-(5 * res.a_mu)) ∈ linspace (-(5 * res.a_mu)) (5 * res.a_mu) 4 ∧
      (2 ≤ 4 → (5 * res.a_mu) ∈ linspace (-(5 * res.a_mu)) (5 * res.a_mu) 4)) := by
  have hmu : resolve_mu 1 true none = .ok (mE * mP / (mE + mP)) := by
    simp [resolve_mu, reduced_electron_nucleus_mass]
  have hmupos : 0 < mE * mP / (mE + mP) := by norm_num [mE, mP]
  exact ⟨by decide, hmu, hmupos, by norm_num, by decide,
    C7_slice_composer_shapes 1 0 0 1 true none (mE * mP / (mE + mP)) 5 4 0 .plane
      (by decide) hmu hmupos (by norm_num) (by decide)⟩

/-- C9: the Angular Evaluator returns genuinely complex values carrying
the azimuthal phase `e^{i m phi}`: every valid sample factors as a real
coefficient times `exp(i m phi)`; the sample at `(l, m) = (1, 1)`,
`theta = phi = pi/2` has nonzero imaginary part (so the code does not use
the real-part-only convention); and for `l = 0, m = 0` the evaluator
returns the constant `1 / sqrt(4 pi)` independent of `theta` and `phi`. -/
theorem C9_angular_evaluator_complex :
    (∀ theta phi : List (List ℝ),
      spherical_harmonic_Ylm 0 0 theta phi
        = .ok (List.zipWith (List.zipWith
            (fun _ _ => ((1 / Real.sqrt (4 * Real.pi) : ℝ) : ℂ))) theta phi)) ∧
    (∀ (l m : ℤ), l ≥ 0 → -l ≤ m → m ≤ l → ∀ th ph : ℝ,
      ∃ c : ℝ, sphHarmCore l.toNat m th ph
        = (c : ℂ) * Complex.exp (Complex.I * (m : ℂ) * (ph : ℂ))) ∧
    (sphHarmCore 1 1 (Real.pi / 2) (Real.pi / 2)).im ≠ 0 := by
  refine ⟨?_, ?_, ?_⟩
  · intro theta phi
    rw [spherical_ok (by decide : (0 : ℤ) ≥ 0 ∧ -(0 : ℤ) ≤ 0 ∧ (0 : ℤ) ≤ 0) theta phi]
    have hfun : sphHarmCore (0 : ℤ).toNat 0
        = fun (_ _ : ℝ) => ((1 / Real.sqrt (4 * Real.pi) : ℝ) : ℂ) := by
      funext th ph
      simp only [sphHarmCore, assocLegendreZ, assocLegendre, assocLegendreAux, oddDoubleFact,
        Int.toNat_zero, le_refl, if_pos, Nat.sub_zero, pow_zero, mul_one, one_mul,
        Nat.factorial_zero, Int.sub_zero, Int.add_zero, Int.toNat_zero, Nat.cast_zero,
        Complex.ofReal_zero, mul_zero, zero_mul, Complex.exp_zero]
      norm_num
    rw [hfun]
  · intro l m _ _ _ th ph
    exact ⟨Real.sqrt ((2 * (l.toNat : ℝ) + 1) / (4 * Real.pi)
        * ((Nat.factorial ((l.toNat : ℤ) - m).toNat : ℝ)
          / (Nat.factorial ((l.toNat : ℤ) + m).toNat : ℝ)))
      * assocLegendreZ l.toNat m (Real.cos th), rfl⟩
  · have harg : Complex.I * ((1 : ℤ) : ℂ) * ((Real.pi / 2 : ℝ) : ℂ)
        = ((Real.pi / 2 : ℝ) : ℂ) * Complex.I := by
      push_cast
      ring
    have hB : assocLegendreZ 1 1 (Real.cos (Real.pi / 2)) = -1 := by
      rw [Real.cos_pi_div_two]
      simp [assocLegendreZ, assocLegendre, assocLegendreAux, oddDoubleFact]
    have hA : (0 : ℝ) < Real.sqrt ((2 * ((1 : ℕ) : ℝ) + 1) / (4 * Real.pi)
        * ((Nat.factorial (((1 : ℕ) : ℤ) - 1).toNat : ℝ)
          / (Nat.factorial (((1 : ℕ) : ℤ) + 1).toNat : ℝ))) := by
      apply Real.sqrt_pos.mpr
      have hpi : (0 : ℝ) < Real.pi := Real.pi_pos
      norm_num
      positivity
    simp only [sphHarmCore, harg, Complex.im_ofReal_mul, Complex.exp_ofReal_mul_I_im,
      Real.sin_pi_div_two, mul_one, hB]
    intro hc
    nlinarith [hA]

/-- Witness for C9 at `(l, m) = (1, 0)`, `theta = phi = 0`. -/
theorem C9_angular_evaluator_complex_witness :
    (1 : ℤ) ≥ 0 ∧ -(1 : ℤ) ≤ 0 ∧ (0 : ℤ) ≤ 1 ∧
    ∃ c : ℝ, sphHarmCore (1 : ℤ).toNat 0 0 0
      = (c : ℂ) * Complex.exp (Complex.I * ((0 : ℤ) : ℂ) * ((0 : ℝ) : ℂ)) :=
  ⟨by decide, by decide, by decide,
    C9_angular_evaluator_complex.2.1 1 0 (by decide) (by decide) (by decide) 0 0⟩

/-- C2: the naive factorial-based `radial_function` and the stabilized
log-gamma radial core are NOT equal in exact real arithmetic: at
`(n, l) = (1, 0)`, `r = 0`, `Z = 1`, with the naive `a0` argument equal
to the default reduced-mass Bohr radius `a_mu`, the naive normalization
constant `sqrt(((2/n * a0))^3 ... )` — Python precedence `(2/n)*a0` —
differs from the exponentiated log-gamma prefactor (which realizes
`(2/(n*a_mu))^(3/2) * sqrt(...)`): the naive value is below 1 while the
stabilized value exceeds 1. This evaluates the two implementations at the
failing input of the corresponding code-bug report. -/
theorem C2_naive_vs_stable_diverge :
    radial_function 1 0 0 (reduced_bohr_radius (mE * mP / (mE + mP)))
      ≠ radialCore 1 0 1 (reduced_bohr_radius (mE * mP / (mE + mP))) 0 := by
  set c : ℝ := reduced_bohr_radius (mE * mP / (mE + mP)) with hc
  have hcpos : 0 < c := by
    rw [hc]
    norm_num [reduced_bohr_radius, mE, mP, bohrRadius]
  have hcsmall : c < 1 / 2 := by
    rw [hc]
    norm_num [reduced_bohr_radius, mE, mP, bohrRadius]
  have hnaive : radial_function 1 0 0 c = Real.sqrt ((2 / 1 * c) ^ 3 / 2) := by
    simp [radial_function, spFactorial, eval_genlaguerre, Nat.factorial]
  have hstable : radialCore 1 0 1 c 0
      = Real.exp (1.5 * Real.log (2 / c) - 0.5 * Real.log 2) := by
    simp only [radialCore, gammaln, eval_genlaguerre]
    norm_num [Real.Gamma_one, Real.Gamma_two]
    ring
  have h1 : radial_function 1 0 0 c < 1 := by
    rw [hnaive]
    rw [Real.sqrt_lt' one_pos]
    nlinarith [mul_lt_mul_of_pos_right hcsmall hcpos,
      mul_lt_mul_of_pos_right (mul_lt_mul_of_pos_right hcsmall hcpos) hcpos]
  have h2 : 1 < radialCore 1 0 1 c 0 := by
    rw [hstable, Real.one_lt_exp_iff]
    have hlog2 : 0 < Real.log 2 := Real.log_pos (by norm_num)
    have h2c : (2 : ℝ) < 2 / c := by
      rw [lt_div_iff₀ hcpos]
      nlinarith
    have hmono : Real.log 2 < Real.log (2 / c) := Real.log_lt_log (by norm_num) h2c
    linarith
  intro heq
  rw [heq] at h1
  linarith

end

end Hydrogen
